import Mathlib

/-!
Verification development for the JPEG_Project block codec
(grayscale JPEG-style pipeline: zigzag RLE, Huffman coding,
quantization tables, IDCT, container parsing, chroma subsampling).

Machine integers are modelled as Int/Nat with explicit wrapping where the
C++ code performs narrowing casts.  C char is 8-bit two of complement.
-/

set_option maxRecDepth 8000

namespace JPEGProj

/-- Model of static_cast to signed char on an int: wrap into [-128, 127]. -/
def toByte (v : ℤ) : ℤ := (v + 128) % 256 - 128

/-- Model of static_cast to unsigned char on a stored char value, as a Nat. -/
def toUByte (v : ℤ) : ℕ := (v % 256).toNat

theorem toByte_eq_self (v : ℤ) (h1 : -128 ≤ v) (h2 : v ≤ 127) : toByte v = v := by
  unfold toByte; omega

theorem toByte_range (v : ℤ) : -128 ≤ toByte v ∧ toByte v ≤ 127 := by
  unfold toByte; omega

theorem toUByte_zero_iff (v : ℤ) (h1 : -128 ≤ v) (h2 : v ≤ 127) :
    toUByte v = 0 ↔ v = 0 := by
  unfold toUByte; omega

theorem toUByte_small (n : ℕ) (h : n < 128) : toUByte (n : ℤ) = n := by
  unfold toUByte; omega

/-- Zigzag scan order of cCompression::RLE_Block (raster index of the
k-th zigzag position). -/
def zigzagF : List (Fin 64) :=
  [0, 1, 8, 16, 9, 2, 3, 10, 17, 24, 32, 25, 18, 11, 4, 5,
   12, 19, 26, 33, 40, 48, 41, 34, 27, 20, 13, 6, 7, 14, 21, 28,
   35, 42, 49, 56, 57, 50, 43, 36, 29, 22, 15, 23, 30, 37, 44, 51,
   58, 59, 52, 45, 38, 31, 39, 46, 53, 60, 61, 54, 47, 55, 62, 63]

/-- Zigzag position to raster index. -/
def zz (i : Fin 64) : Fin 64 := zigzagF.getD i.val 0

theorem zz_inj : ∀ a b : Fin 64, zz a = zz b → a = b := by decide

theorem zz_surj : ∀ x : Fin 64, ∃ j : Fin 64, zz j = x := by decide

theorem zz_zero : zz 0 = 0 := by decide

/-- Escape emission loop of RLE_Block: while (zero_run > 15) emit the pair
(15, 0) and subtract 16.  The pattern r + 16 is exactly the loop guard
zero_run > 15. -/
def escBytes : ℕ → List ℤ
  | r + 16 => 15 :: 0 :: escBytes r
  | _ => []

/-- Value of zero_run after the escape loop of RLE_Block. -/
def residual : ℕ → ℕ
  | r + 16 => residual r
  | r => r

/-- AC encoding loop of RLE_Block over zigzag positions 1..63.
The counter m is the number of loop iterations still to run, so in the
m + 1 case the current zigzag index is 63 - m; run is the accumulated
zero run. -/
def encACAux (lin : Fin 64 → ℤ) : ℕ → ℕ → List ℤ
  | 0, _ => []
  | m + 1, run =>
    if lin ⟨63 - m, by omega⟩ = 0 then
      encACAux lin m (run + 1)
    else
      escBytes run ++
        toByte ((residual run : ℕ) : ℤ) :: toByte (lin ⟨63 - m, by omega⟩) ::
          encACAux lin m 0

/-- Byte stream written by cCompression::RLE_Block for one quantized block
(B is the 8x8 block flattened in raster order) and previous DC value.
The end-of-block pair is appended exactly when the position counter is
still below 128, as in the source. -/
def RLE_Block (B : Fin 64 → ℤ) (DC_precedent : ℤ) : List ℤ :=
  let body := toByte (B (zz 0) - DC_precedent) :: encACAux (fun i => B (zz i)) 63 0
  body ++ (if body.length < 128 then [0, 0] else [])

/-- AC parsing loop of cCompression::Decompression_JPEG (step 5): while two
bytes remain and idx < 64, read a (run, value) pair, stop on (0,0), skip
run positions, write the value at the zigzag position. -/
def decAC : List ℤ → ℕ → (Fin 64 → ℤ) → Fin 64 → ℤ
  | run :: val :: rest, idx, acc =>
    if idx < 64 then
      if toUByte run = 0 ∧ toUByte val = 0 then acc
      else
        if h : idx + toUByte run < 64 then
          decAC rest (idx + toUByte run + 1)
            (Function.update acc (zz ⟨idx + toUByte run, h⟩) (toByte val))
        else acc
    else acc
  | _, _, acc => acc

/-- Per-block RLE decoding of Decompression_JPEG: read the DC differential
byte, add the previous DC, then parse AC pairs into a zero-filled block. -/
def decodeBlock : List ℤ → ℤ → Fin 64 → ℤ
  | [], _ => fun _ => 0
  | dcb :: rest, prev =>
      decAC rest 1 (Function.update (fun _ => 0) 0 (toByte dcb + prev))

theorem escBytes_small (r : ℕ) (h : r < 16) : escBytes r = [] := by
  interval_cases r <;> rfl

theorem residual_small (r : ℕ) (h : r < 16) : residual r = r := by
  interval_cases r <;> rfl

theorem residual_le (r : ℕ) : residual r ≤ r := by
  induction r using Nat.strong_induction_on with
  | _ r ih =>
    by_cases h : r < 16
    · rw [residual_small r h]
    · obtain ⟨r', rfl⟩ : ∃ r', r = r' + 16 := ⟨r - 16, by omega⟩
      have := ih r' (by omega)
      simpa [residual] using by omega

theorem residual_lt (r : ℕ) : residual r < 16 := by
  induction r using Nat.strong_induction_on with
  | _ r ih =>
    by_cases h : r < 16
    · rw [residual_small r h]; exact h
    · obtain ⟨r', rfl⟩ : ∃ r', r = r' + 16 := ⟨r - 16, by omega⟩
      simpa [residual] using ih r' (by omega)

theorem escBytes_length (r : ℕ) : (escBytes r).length = 2 * (r / 16) := by
  induction r using Nat.strong_induction_on with
  | _ r ih =>
    by_cases h : r < 16
    · rw [escBytes_small r h]; simp; omega
    · obtain ⟨r', rfl⟩ : ∃ r', r = r' + 16 := ⟨r - 16, by omega⟩
      have := ih r' (by omega)
      simp [escBytes, this]; omega

theorem encACAux_length (lin : Fin 64 → ℤ) :
    ∀ m r, (encACAux lin m r).length ≤ 2 * m + 2 * (r / 16) := by
  intro m
  induction m with
  | zero => intro r; simp [encACAux]
  | succ m ih =>
    intro r
    by_cases h : lin ⟨63 - m, by omega⟩ = 0
    · simp only [encACAux, if_pos h]
      have := ih (r + 1)
      omega
    · simp only [encACAux, if_neg h, List.length_append, List.length_cons]
      have h1 := escBytes_length r
      have := ih 0
      omega

theorem residual_add16 (r : ℕ) : residual (r + 16) = residual r := rfl

theorem escBytes_add16 (r : ℕ) : escBytes (r + 16) = 15 :: 0 :: escBytes r := rfl

theorem decAC_escBytes (r : ℕ) : ∀ (idx : ℕ) (acc : Fin 64 → ℤ) (s : List ℤ),
    idx + r < 64 →
    (∀ j : Fin 64, idx ≤ j.val → acc (zz j) = 0) →
    decAC (escBytes r ++ s) idx acc = decAC s (idx + (r - residual r)) acc := by
  induction r using Nat.strong_induction_on with
  | _ r ih =>
    intro idx acc s hlt hacc
    by_cases h16 : r < 16
    · rw [escBytes_small r h16, residual_small r h16]
      simp
    · obtain ⟨r', rfl⟩ : ∃ r', r = r' + 16 := ⟨r - 16, by omega⟩
      rw [escBytes_add16, List.cons_append, List.cons_append]
      simp only [decAC]
      rw [if_pos (by omega : idx < 64)]
      rw [if_neg (by decide : ¬(toUByte (15 : ℤ) = 0 ∧ toUByte (0 : ℤ) = 0))]
      simp only [show toUByte (15 : ℤ) = 15 from by decide,
        show toByte (0 : ℤ) = 0 from by decide]
      rw [dif_pos (by omega : idx + 15 < 64)]
      have hupd : Function.update acc (zz ⟨idx + 15, by omega⟩) 0 = acc := by
        rw [Function.update_eq_self_iff]
        exact (hacc ⟨idx + 15, by omega⟩ (by simp)).symm
      rw [hupd]
      rw [ih r' (by omega) (idx + 15 + 1) acc s (by omega)
        (fun j hj => hacc j (by omega))]
      have : idx + 15 + 1 + (r' - residual r') = idx + (r' + 16 - residual (r' + 16)) := by
        rw [residual_add16]
        have := residual_le r'
        omega
      rw [this]

theorem decAC_encACAux (lin : Fin 64 → ℤ) :
    ∀ m, m ≤ 63 → ∀ r, r < 64 - m → ∀ acc : Fin 64 → ℤ,
    (∀ k : Fin 64, 64 - m ≤ k.val → -128 ≤ lin k ∧ lin k ≤ 127) →
    (∀ j : Fin 64, 64 - m - r ≤ j.val → acc (zz j) = 0) →
    (∀ j : Fin 64, 64 - m - r ≤ j.val → j.val < 64 - m → lin j = 0) →
    ∀ j : Fin 64,
      decAC (encACAux lin m r ++ [0, 0]) (64 - m - r) acc (zz j) =
        if j.val < 64 - m - r then acc (zz j) else lin j := by
  intro m
  induction m with
  | zero =>
    intro _ r hr acc _ hacc hzero j
    have h0 : toUByte (0 : ℤ) = 0 := by decide
    simp only [encACAux, List.nil_append, decAC, h0, and_self, if_true]
    have hstep : decAC [] (64 - 0 - r) acc = acc := rfl
    by_cases hidx : 64 - 0 - r < 64
    · rw [if_pos hidx]
      by_cases hj : j.val < 64 - 0 - r
      · rw [if_pos hj]
      · rw [if_neg hj]
        rw [hacc j (by omega), hzero j (by omega) (by omega)]
    · rw [if_neg hidx]
      by_cases hj : j.val < 64 - 0 - r
      · rw [if_pos hj]
      · rw [if_neg hj]
        rw [hacc j (by omega), hzero j (by omega) (by omega)]
  | succ m ih =>
    intro hm r hr acc hrange hacc hzero j
    have hpos : (63 - m : ℕ) < 64 := by omega
    by_cases h0 : lin ⟨63 - m, hpos⟩ = 0
    · have henc : encACAux lin (m + 1) r = encACAux lin m (r + 1) := by
        simp only [encACAux, if_pos h0]
      rw [henc]
      have harith : 64 - (m + 1) - r = 64 - m - (r + 1) := by omega
      rw [harith]
      rw [ih (by omega) (r + 1) (by omega) acc
        (fun k hk => hrange k (by omega))
        (fun j hj => hacc j (by omega))
        (fun j hj1 hj2 => by
          by_cases hj3 : j.val < 64 - (m + 1)
          · exact hzero j (by omega) hj3
          · have hje : j = ⟨63 - m, hpos⟩ := Fin.ext (show j.val = 63 - m by omega)
            rw [hje]; exact h0) j]
    · have henc : encACAux lin (m + 1) r =
          escBytes r ++ toByte ((residual r : ℕ) : ℤ) ::
            toByte (lin ⟨63 - m, hpos⟩) :: encACAux lin m 0 := by
        simp only [encACAux, if_neg h0]
      rw [henc]
      have hrpos : -128 ≤ lin ⟨63 - m, hpos⟩ ∧ lin ⟨63 - m, hpos⟩ ≤ 127 :=
        hrange ⟨63 - m, hpos⟩ (show 64 - (m + 1) ≤ 63 - m by omega)
      rw [List.append_assoc, List.cons_append, List.cons_append]
      rw [decAC_escBytes r (64 - (m + 1) - r) acc _ (by omega)
        (fun j hj => hacc j (by omega))]
      have hresle := residual_le r
      have hreslt := residual_lt r
      have hrunb : toByte ((residual r : ℕ) : ℤ) = ((residual r : ℕ) : ℤ) := by
        apply toByte_eq_self <;> omega
      have hrunu : toUByte ((residual r : ℕ) : ℤ) = residual r :=
        toUByte_small _ (by omega)
      have hvalb : toByte (lin ⟨63 - m, hpos⟩) = lin ⟨63 - m, hpos⟩ :=
        toByte_eq_self _ hrpos.1 hrpos.2
      have hvalu : toUByte (lin ⟨63 - m, hpos⟩) ≠ 0 := by
        rw [Ne, toUByte_zero_iff _ hrpos.1 hrpos.2]
        exact h0
      simp only [decAC, hrunb, hrunu, hvalb, hvalu, and_false, if_false]
      rw [if_pos (by omega : 64 - (m + 1) - r + (r - residual r) < 64)]
      rw [dif_pos (by omega : 64 - (m + 1) - r + (r - residual r) + residual r < 64)]
      have hidxeq : 64 - (m + 1) - r + (r - residual r) + residual r = 63 - m := by
        omega
      simp only [hidxeq]
      have hval : ((⟨63 - m, hpos⟩ : Fin 64) : ℕ) = 63 - m := rfl
      have hres := ih (by omega) 0 (by omega)
        (Function.update acc (zz ⟨63 - m, hpos⟩) (lin ⟨63 - m, hpos⟩))
        (fun k hk => hrange k (by omega))
        (fun j2 hj2 => by
          rw [Function.update_noteq]
          · exact hacc j2 (by omega)
          · intro heq
            have hj2e := zz_inj j2 ⟨63 - m, hpos⟩ heq
            rw [hj2e, hval] at hj2
            omega)
        (fun j2 hj2a hj2b => by omega)
      have hgoal := hres j
      rw [show (63 - m : ℕ) + 1 = 64 - m - 0 from by omega]
      rw [hgoal]
      by_cases hj : j.val < 64 - (m + 1) - r
      · rw [if_pos (by omega : j.val < 64 - m - 0), if_pos hj]
        rw [Function.update_noteq]
        intro heq
        have hje := zz_inj j ⟨63 - m, hpos⟩ heq
        rw [hje, hval] at hj
        omega
      · rw [if_neg hj]
        by_cases hj2 : j.val < 63 - m
        · rw [if_pos (by omega : j.val < 64 - m - 0)]
          rw [Function.update_noteq (fun heq => by
            have hje := zz_inj j ⟨63 - m, hpos⟩ heq
            rw [hje, hval] at hj2
            omega)]
          rw [hacc j (by omega), hzero j (by omega) (by omega)]
        · by_cases hj3 : j.val = 63 - m
          · have hje : j = ⟨63 - m, hpos⟩ := Fin.ext hj3
            rw [if_pos (by omega : j.val < 64 - m - 0), hje,
              Function.update_same]
          · rw [if_neg (by omega : ¬(j.val < 64 - m - 0))]

theorem RLE_Block_unfold (B : Fin 64 → ℤ) (prev : ℤ) :
    RLE_Block B prev =
      toByte (B (zz 0) - prev) :: (encACAux (fun i => B (zz i)) 63 0 ++ [0, 0]) := by
  have hlen := encACAux_length (fun i => B (zz i)) 63 0
  show (toByte (B (zz 0) - prev) :: encACAux (fun i => B (zz i)) 63 0) ++
      (if (toByte (B (zz 0) - prev) :: encACAux (fun i => B (zz i)) 63 0).length < 128
        then [0, 0] else []) =
    toByte (B (zz 0) - prev) :: (encACAux (fun i => B (zz i)) 63 0 ++ [0, 0])
  rw [if_pos]
  · simp
  · simp only [List.length_cons]
    omega

/-- C1 (amended): decoding the RLE_Block byte stream with the same previous
DC recovers the block exactly, provided the DC differential and all AC
coefficients fit in a signed byte (the source casts each emitted value with
static_cast to signed char, so values outside [-128, 127] wrap). -/
theorem rleBlock_decode_roundtrip (B : Fin 64 → ℤ) (prev : ℤ)
    (hdc1 : -128 ≤ B 0 - prev) (hdc2 : B 0 - prev ≤ 127)
    (hac : ∀ j : Fin 64, j ≠ 0 → -128 ≤ B j ∧ B j ≤ 127) :
    decodeBlock (RLE_Block B prev) prev = B := by
  rw [RLE_Block_unfold]
  simp only [decodeBlock]
  have hz0 : B (zz 0) = B 0 := by rw [zz_zero]
  have hdcb : toByte (toByte (B (zz 0) - prev)) + prev = B 0 := by
    rw [hz0, toByte_eq_self _ hdc1 hdc2, toByte_eq_self _ hdc1 hdc2]
    ring
  rw [hdcb]
  have hmain := decAC_encACAux (fun i => B (zz i)) 63 (by omega) 0 (by omega)
    (Function.update (fun _ => 0) 0 (B 0))
    (fun k hk => by
      apply hac
      intro h0
      have hzk : zz k = zz 0 := by rw [h0, zz_zero]
      have := zz_inj k 0 hzk
      rw [this] at hk
      simp at hk)
    (fun j hj => by
      rw [Function.update_noteq]
      intro heq
      have hzj : zz j = zz 0 := by rw [heq, zz_zero]
      have := zz_inj j 0 hzj
      rw [this] at hj
      simp at hj)
    (fun j hj1 hj2 => by omega)
  have e1 : (64 - 63 - 0 : ℕ) = 1 := by norm_num
  rw [e1] at hmain
  funext x
  obtain ⟨j, hj⟩ := zz_surj x
  rw [← hj, hmain j]
  by_cases hj1 : j.val < 1
  · have hj0 : j = 0 := Fin.ext (by omega)
    rw [if_pos hj1, hj0, zz_zero, Function.update_same]
  · rw [if_neg hj1]

/-- C1 counterexample: with a DC coefficient of 200 (previous DC 0) the DC
differential overflows the signed char cast (200 wraps to -56), so the
decoded block differs from the original. -/
theorem rleBlock_roundtrip_cx :
    decodeBlock (RLE_Block (fun j => if j = 0 then 200 else 0) 0) 0 ≠
      (fun j : Fin 64 => if j = 0 then (200 : ℤ) else 0) := by decide

/-- Witness for C1: a block with DC 5, one AC coefficient 7 at raster index
40 (zigzag position 20, hence a zero run of 19 that exercises the (15,0)
escape pair), previous DC 3. -/
theorem rleBlock_decode_roundtrip_witness :
    decodeBlock
        (RLE_Block (fun j => if j = 0 then 5 else if j.val = 40 then 7 else 0) 3) 3 =
      (fun j : Fin 64 => if j = 0 then 5 else if j.val = 40 then (7 : ℤ) else 0) :=
  rleBlock_decode_roundtrip _ 3 (by decide) (by decide) (by decide)

/-- Flatten a list of (run, value) pairs into the byte stream they occupy. -/
def pairsFlat : List (ℤ × ℤ) → List ℤ
  | [] => []
  | q :: qs => q.1 :: q.2 :: pairsFlat qs

theorem pairsFlat_append (l1 l2 : List (ℤ × ℤ)) :
    pairsFlat (l1 ++ l2) = pairsFlat l1 ++ pairsFlat l2 := by
  induction l1 with
  | nil => rfl
  | cons q qs ih => simp [pairsFlat, ih]

theorem escBytes_pairs (r : ℕ) :
    ∃ es : List (ℤ × ℤ), escBytes r = pairsFlat es ∧ ∀ q ∈ es, q = (15, 0) := by
  induction r using Nat.strong_induction_on with
  | _ r ih =>
    by_cases h : r < 16
    · exact ⟨[], by rw [escBytes_small r h]; rfl, by simp⟩
    · obtain ⟨r', rfl⟩ : ∃ r', r = r' + 16 := ⟨r - 16, by omega⟩
      obtain ⟨es, h1, h2⟩ := ih r' (by omega)
      refine ⟨(15, 0) :: es, ?_, ?_⟩
      · rw [escBytes_add16, h1]; rfl
      · intro q hq
        rw [List.mem_cons] at hq
        rcases hq with hq | hq
        · exact hq
        · exact h2 q hq

theorem encACAux_pairs (lin : Fin 64 → ℤ) :
    ∀ m, m ≤ 63 →
    (∀ k : Fin 64, 64 - m ≤ k.val → -128 ≤ lin k ∧ lin k ≤ 127) →
    ∀ r, ∃ ps : List (ℤ × ℤ),
      encACAux lin m r = pairsFlat ps ∧
      ∀ q ∈ ps, q = (15, 0) ∨ q.2 ≠ 0 := by
  intro m
  induction m with
  | zero => intro _ _ r; exact ⟨[], rfl, by simp⟩
  | succ m ih =>
    intro hm hrange r
    have hpos : (63 - m : ℕ) < 64 := by omega
    by_cases h0 : lin ⟨63 - m, hpos⟩ = 0
    · obtain ⟨ps, h1, h2⟩ := ih (by omega) (fun k hk => hrange k (by omega)) (r + 1)
      refine ⟨ps, ?_, h2⟩
      simp only [encACAux, if_pos h0]
      exact h1
    · obtain ⟨ps, h1, h2⟩ := ih (by omega) (fun k hk => hrange k (by omega)) 0
      obtain ⟨es, he1, he2⟩ := escBytes_pairs r
      have hr := hrange ⟨63 - m, hpos⟩ (show 64 - (m + 1) ≤ 63 - m by omega)
      refine ⟨es ++ (toByte ((residual r : ℕ) : ℤ), toByte (lin ⟨63 - m, hpos⟩)) :: ps,
        ?_, ?_⟩
      · simp only [encACAux, if_neg h0]
        rw [pairsFlat_append, he1, h1]
        rfl
      · intro q hq
        rw [List.mem_append] at hq
        rcases hq with hq | hq
        · exact Or.inl (he2 q hq)
        · rw [List.mem_cons] at hq
          rcases hq with hq | hq
          · right
            rw [hq]
            simp only
            rw [toByte_eq_self _ hr.1 hr.2]
            exact h0
          · exact h2 q hq

/-- C3 (amended): the byte stream produced by RLE_Block always ends with
exactly one end-of-block (0,0) pair with no bytes after it, provided every
AC coefficient fits in a signed byte: the stream is the DC byte followed by
pairs none of which is (0,0), then the single terminating (0,0) pair.  The
segment appended to the plane stream by RLE, however, does NOT satisfy
this (see the counterexample): its copy loop scans the 128-byte buffer in
pairs at even offsets while the pairs of the stream start at offset 1, so
it appends one extra zero byte after the EOB (or can stop early). -/
theorem rleBlock_stream_eob (B : Fin 64 → ℤ) (prev : ℤ)
    (hac : ∀ j : Fin 64, j ≠ 0 → -128 ≤ B j ∧ B j ≤ 127) :
    ∃ ps : List (ℤ × ℤ),
      RLE_Block B prev = toByte (B (zz 0) - prev) :: (pairsFlat ps ++ [0, 0]) ∧
      (0, 0) ∉ ps := by
  obtain ⟨ps, h1, h2⟩ := encACAux_pairs (fun i => B (zz i)) 63 (by omega)
    (fun k hk => by
      apply hac
      intro hzk0
      have hzk : zz k = zz 0 := by rw [hzk0, zz_zero]
      have := zz_inj k 0 hzk
      rw [this] at hk
      simp at hk) 0
  refine ⟨ps, ?_, ?_⟩
  · rw [RLE_Block_unfold, h1]
  · intro hmem
    rcases h2 _ hmem with h | h
    · exact absurd h (by decide)
    · exact h rfl

/-- C4 (amended): provided every AC coefficient fits in a signed byte, the
RLE_Block stream never contains a (0,0) pair before the final terminator:
every emitted (run, value) pair other than the final EOB is either the
(15,0) escape or has a nonzero value byte (a true zero coefficient is
absorbed into the run counter).  Without the range assumption this fails:
a nonzero coefficient that is 0 mod 256 is cast to the value byte 0. -/
theorem rleBlock_no_spurious_eob (B : Fin 64 → ℤ) (prev : ℤ)
    (hac : ∀ j : Fin 64, j ≠ 0 → -128 ≤ B j ∧ B j ≤ 127) :
    ∃ ps : List (ℤ × ℤ),
      RLE_Block B prev = toByte (B (zz 0) - prev) :: pairsFlat (ps ++ [(0, 0)]) ∧
      ∀ q ∈ ps, q = (15, 0) ∨ q.2 ≠ 0 := by
  obtain ⟨ps, h1, h2⟩ := encACAux_pairs (fun i => B (zz i)) 63 (by omega)
    (fun k hk => by
      apply hac
      intro hzk0
      have hzk : zz k = zz 0 := by rw [hzk0, zz_zero]
      have := zz_inj k 0 hzk
      rw [this] at hk
      simp at hk) 0
  refine ⟨ps, ?_, h2⟩
  rw [RLE_Block_unfold, h1, pairsFlat_append]
  rfl

/-- The per-block 128-byte buffer block_trame of cCompression::RLE: the
stream padded with the zero initialization of the buffer. -/
def pad128 (s : List ℤ) : List ℤ := s ++ List.replicate (128 - s.length) 0

/-- Split a byte list into consecutive pairs, as the copy loop of RLE reads
the buffer at indices (0,1), (2,3), ... -/
def bufPairs : List ℤ → List (ℤ × ℤ)
  | a :: b :: rest => (a, b) :: bufPairs rest
  | _ => []

/-- Copy loop of cCompression::RLE (lines 278-284): push both bytes of each
pair, and stop after pushing a pair whose two bytes are zero. -/
def copyPairs : List (ℤ × ℤ) → List ℤ
  | [] => []
  | q :: qs => q.1 :: q.2 :: (if q.1 = 0 ∧ q.2 = 0 then [] else copyPairs qs)

/-- The segment that cCompression::RLE appends to the plane stream for one
block whose RLE_Block stream is s. -/
def rleAppendSegment (s : List ℤ) : List ℤ := copyPairs (bufPairs (pad128 s))

/-- C3 counterexample: for the block with DC 1 and a single AC coefficient 7
at zigzag position 1, the RLE_Block stream is [1, 0, 7, 0, 0] (DC byte,
pair (0,7), EOB pair), but the segment RLE appends to the plane stream is
[1, 0, 7, 0, 0, 0]: one extra zero byte after the end-of-block pair,
because the copy loop scans pairs at even buffer offsets while the pairs
of the stream start at offset 1. -/
theorem rle_append_after_eob_cx :
    RLE_Block (fun j => if j = 0 then 1 else if j.val = 1 then 7 else 0) 0
        = [1, 0, 7, 0, 0] ∧
      rleAppendSegment
          (RLE_Block (fun j => if j = 0 then 1 else if j.val = 1 then 7 else 0) 0)
        = [1, 0, 7, 0, 0, 0] := by decide

/-- Witness for C3: a concrete block with two nonzero AC coefficients. -/
theorem rleBlock_stream_eob_witness :
    ∃ ps : List (ℤ × ℤ),
      RLE_Block (fun j => if j.val = 2 then 3 else if j.val = 16 then -4 else 0) 5 =
        toByte ((fun j : Fin 64 => if j.val = 2 then 3 else if j.val = 16 then (-4 : ℤ) else 0)
            (zz 0) - 5) :: (pairsFlat ps ++ [0, 0]) ∧
      (0, 0) ∉ ps :=
  rleBlock_stream_eob _ 5 (by decide)

/-- C4 counterexample: the AC coefficient 256 at zigzag position 1 is
nonzero, but static_cast to signed char turns it into the value byte 0, so
the stream [0, 0, 0, 0, 0] contains the pair (0,0) already at offset 1,
before the final terminator, and decoding loses the coefficient. -/
theorem rleBlock_spurious_eob_cx :
    RLE_Block (fun j => if j.val = 1 then 256 else 0) 0 = [0, 0, 0, 0, 0] ∧
      (RLE_Block (fun j => if j.val = 1 then 256 else 0) 0).tail
        = pairsFlat [(0, 0), (0, 0)] ∧
      decodeBlock (RLE_Block (fun j => if j.val = 1 then 256 else 0) 0) 0 ≠
        (fun j : Fin 64 => if j.val = 1 then (256 : ℤ) else 0) := by decide

/-- Witness for C4: a block with an escape run and an in-range coefficient. -/
theorem rleBlock_no_spurious_eob_witness :
    ∃ ps : List (ℤ × ℤ),
      RLE_Block (fun j => if j.val = 63 then -9 else 0) 1 =
        toByte ((fun j : Fin 64 => if j.val = 63 then (-9 : ℤ) else 0) (zz 0) - 1) ::
          pairsFlat (ps ++ [(0, 0)]) ∧
      ∀ q ∈ ps, q = (15, 0) ∨ q.2 ≠ 0 :=
  rleBlock_no_spurious_eob _ 1 (by decide)

/-- C10: for the all-ones quantized block (63 nonzero AC coefficients) and
previous DC 0, RLE_Block emits 129 bytes: the guard (pos < 128) still
passes at pos = 127, so the end-of-block pair is written at indices 127
and 128, one byte beyond the 128-byte buffer the caller RLE allocates. -/
theorem rleBlock_emits_129_bytes :
    (RLE_Block (fun _ => 1) 0).length = 129 := by decide

/-! Quantization tables (quantification.cpp). -/

/-- The baseline luminance table Q_LUMINANCE. -/
def Q_LUMINANCE : List (List ℕ) :=
  [[16, 11, 10, 16, 24, 40, 51, 61],
   [12, 12, 14, 19, 26, 58, 60, 55],
   [14, 13, 16, 24, 40, 57, 69, 56],
   [14, 17, 22, 29, 51, 87, 80, 62],
   [18, 22, 37, 56, 68, 109, 103, 77],
   [24, 35, 55, 64, 81, 104, 113, 92],
   [49, 64, 78, 87, 103, 121, 120, 101],
   [72, 92, 95, 98, 112, 100, 103, 99]]

/-- Entry access into the baseline table. -/
def qlum (i j : Fin 8) : ℕ := (Q_LUMINANCE.getD i.val []).getD j.val 0

/-- Scale factor lambda of calculer_q_table.  The double arithmetic of the
source is exact rational arithmetic here; for all qualities in [1,100] the
double computation of the source yields the same floor values. -/
def lambdaOf (qualite : ℕ) : ℚ :=
  if qualite < 50 then 5000 / qualite else 200 - 2 * qualite

/-- Scaled quantization table entry of calculer_q_table: floor the scaled
value, then clamp into [1, 255] (the source clamps with max/min on doubles
before the int cast, which is the same on integral values). -/
def calculer_q_table (qualite : ℕ) (i j : Fin 8) : ℤ :=
  max 1 (min 255 (Int.floor (((qlum i j : ℚ) * lambdaOf qualite + 50) / 100)))

/-- Clamp of cCompression::setQualiteGlobale. -/
def setQualiteGlobale (qualite : ℕ) : ℕ :=
  if qualite < 1 then 1 else if qualite > 100 then 100 else qualite

/-- build_Q_table reads the global quality, which is only ever written
through setQualiteGlobale, so it always sees the clamped value. -/
def build_Q_table (qualite : ℕ) (i j : Fin 8) : ℤ :=
  calculer_q_table (setQualiteGlobale qualite) i j

/-- Modelled from the specification text of section 4.2: entry =
clamp(floor((base[i][j]*lambda + 50)/100), 1, 255) with lambda = 5000/q for
q < 50 and 200 - 2q otherwise. -/
def qtable_spec (q : ℕ) (i j : Fin 8) : ℤ :=
  max 1 (min 255
    (Int.floor (((qlum i j : ℚ) *
      (if q < 50 then (5000 : ℚ) / q else 200 - 2 * q) + 50) / 100)))

/-- C6: for every requested quality, the built table equals the spec formula
applied to the clamped quality, and every entry lies in [1, 255] (in
particular it is never zero). -/
theorem build_Q_table_spec (q : ℕ) (i j : Fin 8) :
    build_Q_table q i j = qtable_spec (setQualiteGlobale q) i j ∧
    1 ≤ setQualiteGlobale q ∧ setQualiteGlobale q ≤ 100 ∧
    1 ≤ build_Q_table q i j ∧ build_Q_table q i j ≤ 255 := by
  refine ⟨rfl, ?_, ?_, ?_, ?_⟩
  · unfold setQualiteGlobale; split_ifs <;> omega
  · unfold setQualiteGlobale; split_ifs <;> omega
  · exact le_max_left _ _
  · exact max_le (by norm_num) (min_le_left _ _)

/-! Huffman coding (cHuffman.cpp). -/

/-- Huffman tree node sNoeud: a leaf holds a symbol and a weight, an
internal node holds the combined weight and exactly two children (the
source always assigns both children of a new parent). -/
inductive HTree where
  | leaf (sym : ℤ) (w : ℚ)
  | node (w : ℚ) (l r : HTree)
deriving DecidableEq

/-- Weight (mfreq) of a node. -/
def hweight : HTree → ℚ
  | .leaf _ w => w
  | .node w _ _ => w

/-- Number of leaves of a tree. -/
def leafCount : HTree → ℕ
  | .leaf _ _ => 1
  | .node _ l r => leafCount l + leafCount r

/-- Number of internal nodes of a tree. -/
def internalCount : HTree → ℕ
  | .leaf _ _ => 0
  | .node _ l r => internalCount l + internalCount r + 1

/-- Every internal node weight is the sum of the weights of its children. -/
def wfW : HTree → Prop
  | .leaf _ _ => True
  | .node w l r => w = hweight l + hweight r ∧ wfW l ∧ wfW r

/-- Multiset of (symbol, weight) pairs at the leaves. -/
def leafMS : HTree → Multiset (ℤ × ℚ)
  | .leaf s w => {(s, w)}
  | .node _ l r => leafMS l + leafMS r

/-- Extraction of a minimum-weight node from the forest, modelling one pop
of the std::priority_queue min-heap.  The heap pop order between
equal-weight nodes is unspecified in the source; this model takes the
earliest minimal element, and none of the proved properties depend on the
tie-break. -/
def popMin : List HTree → Option (HTree × List HTree)
  | [] => none
  | t :: ts =>
    match popMin ts with
    | none => some (t, [])
    | some (m, rest) =>
        if hweight t ≤ hweight m then some (t, ts) else some (m, t :: rest)

/-- Tree-building loop of cHuffman::HuffmanCodes: while more than one node
remains, pop the two lowest-weight nodes and push a parent whose weight is
their sum.  The fuel argument bounds the iteration count; HuffmanCodes
passes the forest size, which always suffices since each iteration shrinks
the forest by one. -/
def buildLoop : ℕ → List HTree → List HTree
  | 0, l => l
  | f + 1, l =>
    if l.length ≤ 1 then l
    else
      match popMin l with
      | none => l
      | some (a, l1) =>
        match popMin l1 with
        | none => l
        | some (b, l2) => buildLoop f (HTree.node (hweight a + hweight b) a b :: l2)

/-- cHuffman::HuffmanCodes: build one leaf per (symbol, frequency) entry,
run the combining loop, return the root (none for an empty input, where
the source just clears the tree). -/
def HuffmanCodes (syms : List (ℤ × ℚ)) : Option HTree :=
  match syms with
  | [] => none
  | _ => (buildLoop syms.length (syms.map fun p => HTree.leaf p.1 p.2)).head?

/-- buildTableRec of cHuffman.cpp: at a leaf record the accumulated prefix
as the code, otherwise recurse with "0" appended on the left and "1" on
the right. -/
def buildTableRec : HTree → String → List (ℤ × String)
  | .leaf s _, pre => [(s, pre)]
  | .node _ l r, pre => buildTableRec l (pre ++ "0") ++ buildTableRec r (pre ++ "1")

/-- cHuffman::BuildTableCodes: traverse from the root with the empty
prefix. -/
def BuildTableCodes (t : HTree) : List (ℤ × String) := buildTableRec t ""

/-- Bit packing loop of cCompression::Compression_JPEG step 4: the emitted
bit string is the concatenation of the code of each input byte (the map
operator of the source inserts an empty code for unknown symbols). -/
def packBits (tbl : List (ℤ × String)) (stream : List ℤ) : List Char :=
  stream.flatMap fun sym => ((tbl.lookup sym).getD "").toList

theorem popMin_cons (t : HTree) (ts : List HTree) :
    ∃ a rest, popMin (t :: ts) = some (a, rest) := by
  rcases hp : popMin ts with _ | ⟨m, rest⟩
  · exact ⟨t, [], by simp [popMin, hp]⟩
  · by_cases hw : hweight t ≤ hweight m
    · exact ⟨t, ts, by simp [popMin, hp, hw]⟩
    · exact ⟨m, t :: rest, by simp [popMin, hp, hw]⟩

theorem popMin_perm :
    ∀ (l : List HTree) (a : HTree) (rest : List HTree),
      popMin l = some (a, rest) → l.Perm (a :: rest) := by
  intro l
  induction l with
  | nil => intro a rest h; simp [popMin] at h
  | cons t ts ih =>
    intro a rest h
    rcases hp : popMin ts with _ | ⟨m, r2⟩
    · rw [popMin, hp] at h
      simp at h
      obtain ⟨rfl, rfl⟩ := h
      have hts : ts = [] := by
        cases ts with
        | nil => rfl
        | cons u us =>
          obtain ⟨x, y, hxy⟩ := popMin_cons u us
          rw [hxy] at hp
          exact absurd hp (by simp)
      rw [hts]
    · rw [popMin, hp] at h
      by_cases hw : hweight t ≤ hweight m
      · simp only [if_pos hw] at h
        simp at h
        obtain ⟨rfl, rfl⟩ := h
        exact List.Perm.refl _
      · simp only [if_neg hw] at h
        simp at h
        obtain ⟨rfl, rfl⟩ := h
        have hts := ih m r2 hp
        exact (hts.cons t).trans (List.Perm.swap m t r2)

theorem buildLoop_spec :
    ∀ (f : ℕ) (l : List HTree), l ≠ [] → l.length ≤ f + 1 →
    (∀ t ∈ l, wfW t ∧ internalCount t + 1 = leafCount t) →
    ∃ root, buildLoop f l = [root] ∧
      wfW root ∧ internalCount root + 1 = leafCount root ∧
      leafMS root = (l.map leafMS).sum := by
  intro f
  induction f with
  | zero =>
    intro l hne hlen hP
    cases l with
    | nil => exact absurd rfl hne
    | cons a l' =>
      cases l' with
      | nil =>
        obtain ⟨h1, h2⟩ := hP a (by simp)
        exact ⟨a, rfl, h1, h2, by simp⟩
      | cons b l'' => simp at hlen
  | succ f ih =>
    intro l hne hlen hP
    by_cases hl1 : l.length ≤ 1
    · cases l with
      | nil => exact absurd rfl hne
      | cons a l' =>
        cases l' with
        | nil =>
          obtain ⟨h1, h2⟩ := hP a (by simp)
          exact ⟨a, by simp [buildLoop], h1, h2, by simp⟩
        | cons b l'' => simp at hl1
    · cases l with
      | nil => exact absurd rfl hne
      | cons t ts =>
        obtain ⟨a, l1, hp1⟩ := popMin_cons t ts
        have hperm1 := popMin_perm _ _ _ hp1
        have hlen1 : ts.length = l1.length := by
          have := hperm1.length_eq
          simp at this
          omega
        cases l1 with
        | nil =>
          exfalso
          simp only [List.length_nil] at hlen1
          simp only [List.length_cons] at hl1
          omega
        | cons u us =>
          obtain ⟨b, l2, hp2⟩ := popMin_cons u us
          have hperm2 := popMin_perm _ _ _ hp2
          have hlen2 : us.length = l2.length := by
            have := hperm2.length_eq
            simp at this
            omega
          have hstep : buildLoop (f + 1) (t :: ts) =
              buildLoop f (HTree.node (hweight a + hweight b) a b :: l2) := by
            rw [buildLoop, if_neg hl1]
            simp only [hp1, hp2]
          have hmema : a ∈ t :: ts := hperm1.symm.subset (by simp)
          have hmemb : b ∈ t :: ts :=
            hperm1.symm.subset (List.mem_cons_of_mem a (hperm2.symm.subset (by simp)))
          have hmem2 : ∀ x ∈ l2, x ∈ t :: ts := fun x hx =>
            hperm1.symm.subset
              (List.mem_cons_of_mem a (hperm2.symm.subset (List.mem_cons_of_mem b hx)))
          obtain ⟨ha1, ha2⟩ := hP a hmema
          obtain ⟨hb1, hb2⟩ := hP b hmemb
          obtain ⟨root, hr1, hr2, hr3, hr4⟩ :=
            ih (HTree.node (hweight a + hweight b) a b :: l2)
              (by simp)
              (by
                simp only [List.length_cons] at hl1 hlen hlen1 ⊢
                omega)
              (fun x hx => by
                rcases List.mem_cons.mp hx with rfl | hx2
                · refine ⟨⟨rfl, ha1, hb1⟩, ?_⟩
                  show internalCount a + internalCount b + 1 + 1 =
                    leafCount a + leafCount b
                  omega
                · exact hP x (hmem2 x hx2))
          refine ⟨root, hstep ▸ hr1, hr2, hr3, ?_⟩
          rw [hr4]
          have hsum1 : ((t :: ts).map leafMS).sum = ((a :: u :: us).map leafMS).sum :=
            (hperm1.map leafMS).sum_eq
          have hsum2 : ((u :: us).map leafMS).sum = ((b :: l2).map leafMS).sum :=
            (hperm2.map leafMS).sum_eq
          simp only [List.map_cons, List.sum_cons, leafMS] at hsum1 hsum2 ⊢
          rw [hsum1, hsum2]
          exact add_assoc _ _ _

theorem leaves_map_sum (syms : List (ℤ × ℚ)) :
    ((syms.map fun p => HTree.leaf p.1 p.2).map leafMS).sum =
      (syms : Multiset (ℤ × ℚ)) := by
  induction syms with
  | nil => simp
  | cons p ps ih =>
    simp only [List.map_cons, List.sum_cons, ih, leafMS]
    rfl

theorem leafMS_card (t : HTree) : Multiset.card (leafMS t) = leafCount t := by
  induction t with
  | leaf s w => rfl
  | node w l r ihl ihr => simp [leafMS, leafCount, ihl, ihr]

/-- C9: for a histogram with at least one entry, HuffmanCodes produces a
root whose leaves are exactly the input (symbol, weight) pairs (so there
are exactly N leaves), with exactly N - 1 internal nodes, each internal
node carrying two children (by construction of the node variant) and a
weight equal to the sum of the weights of its children. -/
theorem huffman_tree_shape (syms : List (ℤ × ℚ)) (hne : syms ≠ []) :
    ∃ root, HuffmanCodes syms = some root ∧
      leafCount root = syms.length ∧
      internalCount root = syms.length - 1 ∧
      internalCount root + 1 = syms.length ∧
      wfW root ∧
      leafMS root = (syms : Multiset (ℤ × ℚ)) := by
  obtain ⟨root, hr1, hr2, hr3, hr4⟩ :=
    buildLoop_spec syms.length (syms.map fun p => HTree.leaf p.1 p.2)
      (by
        intro hmap
        exact hne (List.map_eq_nil_iff.mp hmap))
      (by simp)
      (fun t ht => by
        obtain ⟨p, _, rfl⟩ := List.mem_map.mp ht
        exact ⟨trivial, rfl⟩)
  have hms : leafMS root = (syms : Multiset (ℤ × ℚ)) := by
    rw [hr4, leaves_map_sum]
  have hcard : leafCount root = syms.length := by
    rw [← leafMS_card, hms]
    simp
  have hhc : HuffmanCodes syms = (buildLoop syms.length
      (syms.map fun p => HTree.leaf p.1 p.2)).head? := by
    cases syms with
    | nil => exact absurd rfl hne
    | cons p ps => rfl
  refine ⟨root, ?_, hcard, by omega, by omega, hr2, hms⟩
  rw [hhc, hr1]
  rfl

/-- Witness for C9: the two-symbol histogram A:5, B:9. -/
theorem huffman_tree_shape_witness :
    ∃ root, HuffmanCodes [((65 : ℤ), (5 : ℚ)), ((66 : ℤ), (9 : ℚ))] = some root ∧
      leafCount root = [((65 : ℤ), (5 : ℚ)), ((66 : ℤ), (9 : ℚ))].length ∧
      internalCount root = [((65 : ℤ), (5 : ℚ)), ((66 : ℤ), (9 : ℚ))].length - 1 ∧
      internalCount root + 1 = [((65 : ℤ), (5 : ℚ)), ((66 : ℤ), (9 : ℚ))].length ∧
      wfW root ∧
      leafMS root = ([((65 : ℤ), (5 : ℚ)), ((66 : ℤ), (9 : ℚ))] : Multiset (ℤ × ℚ)) :=
  huffman_tree_shape _ (by simp)

/-- C5 (amended): a histogram with exactly one distinct symbol yields a
single-leaf tree with no internal nodes, but BuildTableCodes assigns that
symbol the EMPTY code (buildTableRec records the accumulated prefix at the
root leaf, and the root prefix is ""): there is no one-bit special case,
so bit packing of any stream against this table emits zero bits. -/
theorem huffman_single_symbol (s : ℤ) (w : ℚ) (stream : List ℤ) :
    HuffmanCodes [(s, w)] = some (HTree.leaf s w) ∧
    internalCount (HTree.leaf s w) = 0 ∧
    BuildTableCodes (HTree.leaf s w) = [(s, "")] ∧
    packBits (BuildTableCodes (HTree.leaf s w)) stream = [] := by
  refine ⟨rfl, rfl, rfl, ?_⟩
  induction stream with
  | nil => rfl
  | cons x xs ih =>
    show (((BuildTableCodes (HTree.leaf s w)).lookup x).getD "").toList ++
        packBits (BuildTableCodes (HTree.leaf s w)) xs = []
    rw [ih, List.append_nil]
    show (([(s, "")].lookup x).getD "").toList = []
    by_cases hx : x = s
    · subst hx
      simp [List.lookup]
    · have hbeq : (x == s) = false := by simp [hx]
      simp [List.lookup, hbeq]

/-- C5 counterexample: for the one-symbol histogram A:5 the generated code
is the empty string and not a single bit such as "0". -/
theorem huffman_single_symbol_cx :
    HuffmanCodes [((65 : ℤ), (5 : ℚ))] = some (HTree.leaf 65 5) ∧
    BuildTableCodes (HTree.leaf 65 5) = [(65, "")] ∧
    (((BuildTableCodes (HTree.leaf 65 5)).lookup 65).getD "x").length = 0 := by
  refine ⟨rfl, rfl, ?_⟩
  rfl

/-! Bitstream container parsing (cCompression::Decompression_JPEG,
steps 1-2).  The file contents are a list of unsigned bytes. -/

/-- Little-endian 16-bit read at pos, as memcpy into a uint16_t does. -/
def readU16 (d : List ℕ) (pos : ℕ) : Option ℕ :=
  if pos + 2 ≤ d.length then some (d.getD pos 0 + 256 * d.getD (pos + 1) 0)
  else none

/-- Little-endian 32-bit read at pos. -/
def readU32 (d : List ℕ) (pos : ℕ) : Option ℕ :=
  if pos + 4 ≤ d.length then
    some (d.getD pos 0 + 256 * d.getD (pos + 1) 0 +
      65536 * d.getD (pos + 2) 0 + 16777216 * d.getD (pos + 3) 0)
  else none

/-- Reinterpret a byte as the signed char symbol stored in the table. -/
def byteToSigned (b : ℕ) : ℤ := if b < 128 then (b : ℤ) else (b : ℤ) - 256

/-- Symbol table reading loop: each entry needs 1 symbol byte plus a 4-byte
count, and the source checks pos + 1 + 4 > size before each entry. -/
def readEntries : ℕ → ℕ → List ℕ → Option (List (ℤ × ℕ) × ℕ)
  | 0, pos, _ => some ([], pos)
  | n + 1, pos, d =>
    if pos + 5 ≤ d.length then
      match readU32 d (pos + 1) with
      | none => none
      | some cnt =>
        match readEntries n (pos + 5) d with
        | none => none
        | some (tbl, fin) => some ((byteToSigned (d.getD pos 0), cnt) :: tbl, fin)
    else none

/-- The 4-byte magic HUF1 check of Decompression_JPEG. -/
def hasMagic (d : List ℕ) : Bool :=
  decide (4 ≤ d.length) && decide (d.getD 0 0 = 72) && decide (d.getD 1 0 = 85) &&
    decide (d.getD 2 0 = 70) && decide (d.getD 3 0 = 49)

/-- Header parsing of Decompression_JPEG when the magic is present:
u16 symbol count at offset 4 (rejected above 256), the symbol table, then
payload byte length and payload bit count (checked together against the
remaining size), then the payload bytes themselves. -/
def parseHUF1 (d : List ℕ) : Option (List (ℤ × ℕ) × List ℕ × ℕ) :=
  match readU16 d 4 with
  | none => none
  | some n =>
    if n > 256 then none
    else
      match readEntries n 6 d with
      | none => none
      | some (tbl, pos) =>
        if pos + 8 ≤ d.length then
          match readU32 d pos, readU32 d (pos + 4) with
          | some pb, some bits =>
            if pos + 8 + pb ≤ d.length then some (tbl, (d.drop (pos + 8)).take pb, bits)
            else none
          | _, _ => none
        else none

/-- Table-preparation phase of Decompression_JPEG: with the magic, parse
the HUF1 header; without it, fall back to the cached Huffman table
(loadHuffmanTable) if one exists, taking the whole file as payload with a
zero bit count, and fail when no cached table is available. -/
def decompressionPrep (d : List ℕ) (cache : Option (List (ℤ × ℕ))) :
    Option (List (ℤ × ℕ) × List ℕ × ℕ) :=
  if hasMagic d then parseHUF1 d
  else
    match cache with
    | none => none
    | some t => some (t, d, 0)

/-- Modelled from the specification text: a truncated header or payload.
The symbol count and payload length fields are read with the same
little-endian arithmetic as the parser; the file is truncated when it is
too short for the fixed header, for the declared symbol table plus the two
length fields, or for the declared payload. -/
def hufTruncated (d : List ℕ) : Prop :=
  d.length < 6 ∨
  d.length < 6 + 5 * (d.getD 4 0 + 256 * d.getD 5 0) + 8 ∨
  d.length < 6 + 5 * (d.getD 4 0 + 256 * d.getD 5 0) + 8 +
    (d.getD (6 + 5 * (d.getD 4 0 + 256 * d.getD 5 0)) 0 +
      256 * d.getD (6 + 5 * (d.getD 4 0 + 256 * d.getD 5 0) + 1) 0 +
      65536 * d.getD (6 + 5 * (d.getD 4 0 + 256 * d.getD 5 0) + 2) 0 +
      16777216 * d.getD (6 + 5 * (d.getD 4 0 + 256 * d.getD 5 0) + 3) 0)

instance hufTruncated_dec (d : List ℕ) : Decidable (hufTruncated d) := by
  unfold hufTruncated
  infer_instance

theorem readEntries_short (d : List ℕ) :
    ∀ n pos, 1 ≤ n → d.length < pos + 5 * n → readEntries n pos d = none := by
  intro n
  induction n with
  | zero => intro pos h; omega
  | succ n ih =>
    intro pos _ hlen
    by_cases h5 : pos + 5 ≤ d.length
    · rw [readEntries, if_pos h5]
      have hn : 1 ≤ n := by omega
      have : readEntries n (pos + 5) d = none := ih (pos + 5) hn (by omega)
      rw [this]
      rcases readU32 d (pos + 1) with _ | cnt <;> rfl
    · rw [readEntries, if_neg h5]

theorem readEntries_long (d : List ℕ) :
    ∀ n pos, pos + 5 * n ≤ d.length →
      ∃ tbl, readEntries n pos d = some (tbl, pos + 5 * n) := by
  intro n
  induction n with
  | zero => intro pos _; exact ⟨[], by simp [readEntries]⟩
  | succ n ih =>
    intro pos hlen
    have h5 : pos + 5 ≤ d.length := by omega
    obtain ⟨tbl, htbl⟩ := ih (pos + 5) (by omega)
    have hu : readU32 d (pos + 1) =
        some (d.getD (pos + 1) 0 + 256 * d.getD (pos + 2) 0 +
          65536 * d.getD (pos + 3) 0 + 16777216 * d.getD (pos + 4) 0) := by
      rw [readU32, if_pos (by omega)]
    refine ⟨(byteToSigned (d.getD pos 0),
      d.getD (pos + 1) 0 + 256 * d.getD (pos + 2) 0 +
        65536 * d.getD (pos + 3) 0 + 16777216 * d.getD (pos + 4) 0) :: tbl, ?_⟩
    rw [readEntries, if_pos h5, hu, htbl]
    have : pos + 5 + 5 * n = pos + 5 * (n + 1) := by omega
    rw [this]

/-- C7: the error paths of Decompression_JPEG.  Without the magic the
reader falls back to the cached table and fails if there is none; with the
magic, a truncated header or payload makes it fail.  In every failure case
the result is none, so no partial image is produced. -/
theorem decompression_prep_errors (d : List ℕ) (cache : Option (List (ℤ × ℕ))) :
    (hasMagic d = false → cache = none → decompressionPrep d cache = none) ∧
    (∀ t, hasMagic d = false → cache = some t →
      decompressionPrep d cache = some (t, d, 0)) ∧
    (hasMagic d = true → hufTruncated d → decompressionPrep d cache = none) := by
  refine ⟨?_, ?_, ?_⟩
  · intro hm hc
    simp [decompressionPrep, hm, hc]
  · intro t hm hc
    simp [decompressionPrep, hm, hc]
  · intro hm htr
    have hprep : decompressionPrep d cache = parseHUF1 d := by
      simp [decompressionPrep, hm]
    rw [hprep]
    by_cases h6 : 6 ≤ d.length
    · have hu16 : readU16 d 4 = some (d.getD 4 0 + 256 * d.getD 5 0) := by
        rw [readU16, if_pos (by omega)]
      rw [parseHUF1.eq_def]
      set n := d.getD 4 0 + 256 * d.getD 5 0 with hn
      simp only [hu16]
      by_cases hn256 : n > 256
      · rw [if_pos hn256]
      · rw [if_neg hn256]
        by_cases hshort : d.length < 6 + 5 * n
        · have hn0 : 1 ≤ n := by omega
          rw [readEntries_short d n 6 hn0 (by omega)]
        · obtain ⟨tbl, htbl⟩ := readEntries_long d n 6 (by omega)
          simp only [htbl]
          rcases htr with h | h | h
          · omega
          · rw [if_neg (by omega)]
          · rw [← hn] at h
            by_cases hshort8 : d.length < 6 + 5 * n + 8
            · rw [if_neg (by omega)]
            · rw [if_pos (by omega : 6 + 5 * n + 8 ≤ d.length)]
              have hu1 : readU32 d (6 + 5 * n) = some
                  (d.getD (6 + 5 * n) 0 + 256 * d.getD (6 + 5 * n + 1) 0 +
                    65536 * d.getD (6 + 5 * n + 2) 0 +
                    16777216 * d.getD (6 + 5 * n + 3) 0) := by
                rw [readU32, if_pos (by omega)]
              have hu2 : readU32 d (6 + 5 * n + 4) = some
                  (d.getD (6 + 5 * n + 4) 0 + 256 * d.getD (6 + 5 * n + 4 + 1) 0 +
                    65536 * d.getD (6 + 5 * n + 4 + 2) 0 +
                    16777216 * d.getD (6 + 5 * n + 4 + 3) 0) := by
                rw [readU32, if_pos (by omega)]
              simp only [hu1, hu2]
              rw [if_neg (by omega)]
    · rw [parseHUF1.eq_def]
      have : readU16 d 4 = none := by rw [readU16, if_neg (by omega)]
      rw [this]

/-- Witness for C7: the file [72, 85, 70, 49, 0] carries the HUF1 magic but
is truncated before the symbol count, so decompression fails. -/
theorem decompression_prep_errors_witness :
    hasMagic [72, 85, 70, 49, 0] = true ∧
    hufTruncated [72, 85, 70, 49, 0] ∧
    decompressionPrep [72, 85, 70, 49, 0] none = none := by
  refine ⟨by decide, by decide, ?_⟩
  exact (decompression_prep_errors [72, 85, 70, 49, 0] none).2.2 (by decide) (by decide)

/-! Chroma subsampling (cCompressionCouleur.cpp).  A plane is a width, a
height and a row-major sample function; samples are bytes.  The inner 2x2
and 1x2 loops of the source are unrolled with their bounds checks, and the
store casts the averaged value to unsigned char. -/

/-- subsample420: cw = (w+1)/2, ch = (h+1)/2, each output sample is the
integer average of the in-range samples of a 2x2 block. -/
def subsample420 (w h : ℕ) (src : ℕ → ℕ → ℕ) : ℕ × ℕ × (ℕ → ℕ → ℕ) :=
  ((w + 1) / 2, (h + 1) / 2, fun y x =>
    ((if 0 < (if 2 * x < w ∧ 2 * y < h then 1 else 0) +
          (if 2 * x + 1 < w ∧ 2 * y < h then 1 else 0) +
          (if 2 * x < w ∧ 2 * y + 1 < h then 1 else 0) +
          (if 2 * x + 1 < w ∧ 2 * y + 1 < h then 1 else 0) then
        ((if 2 * x < w ∧ 2 * y < h then src (2 * y) (2 * x) else 0) +
          (if 2 * x + 1 < w ∧ 2 * y < h then src (2 * y) (2 * x + 1) else 0) +
          (if 2 * x < w ∧ 2 * y + 1 < h then src (2 * y + 1) (2 * x) else 0) +
          (if 2 * x + 1 < w ∧ 2 * y + 1 < h then src (2 * y + 1) (2 * x + 1) else 0)) /
        ((if 2 * x < w ∧ 2 * y < h then 1 else 0) +
          (if 2 * x + 1 < w ∧ 2 * y < h then 1 else 0) +
          (if 2 * x < w ∧ 2 * y + 1 < h then 1 else 0) +
          (if 2 * x + 1 < w ∧ 2 * y + 1 < h then 1 else 0))
      else 0) % 256))

/-- subsample422: cw = (w+1)/2, ch = h, each output sample is the integer
average of the in-range samples of a horizontal pair. -/
def subsample422 (w h : ℕ) (src : ℕ → ℕ → ℕ) : ℕ × ℕ × (ℕ → ℕ → ℕ) :=
  ((w + 1) / 2, h, fun y x =>
    ((if 0 < (if 2 * x < w then 1 else 0) + (if 2 * x + 1 < w then 1 else 0) then
        ((if 2 * x < w then src y (2 * x) else 0) +
          (if 2 * x + 1 < w then src y (2 * x + 1) else 0)) /
        ((if 2 * x < w then 1 else 0) + (if 2 * x + 1 < w then 1 else 0))
      else 0) % 256))

/-- Step 3 of cCompressionCouleur::CompressPPM: mode 420 and mode 422 call
the corresponding subsampler, every other mode value (444 and anything
else) copies the chroma plane unchanged. -/
def subsampleDispatch (mode w h : ℕ) (src : ℕ → ℕ → ℕ) : ℕ × ℕ × (ℕ → ℕ → ℕ) :=
  if mode = 420 then subsample420 w h src
  else if mode = 422 then subsample422 w h src
  else (w, h, src)

/-- Modelled from the spec: 4:2:2 averages each 2 horizontal samples. -/
def subsample422_spec (w h : ℕ) (src : ℕ → ℕ → ℕ) : ℕ × ℕ × (ℕ → ℕ → ℕ) :=
  ((w + 1) / 2, h, fun y x =>
    if 2 * x + 1 < w then (src y (2 * x) + src y (2 * x + 1)) / 2 else src y (2 * x))

/-- Modelled from the spec: 4:2:0 averages each 2x2 block. -/
def subsample420_spec (w h : ℕ) (src : ℕ → ℕ → ℕ) : ℕ × ℕ × (ℕ → ℕ → ℕ) :=
  ((w + 1) / 2, (h + 1) / 2, fun y x =>
    if 2 * x + 1 < w ∧ 2 * y + 1 < h then
      (src (2 * y) (2 * x) + src (2 * y) (2 * x + 1) +
        src (2 * y + 1) (2 * x) + src (2 * y + 1) (2 * x + 1)) / 4
    else if 2 * y + 1 < h then (src (2 * y) (2 * x) + src (2 * y + 1) (2 * x)) / 2
    else if 2 * x + 1 < w then (src (2 * y) (2 * x) + src (2 * y) (2 * x + 1)) / 2
    else src (2 * y) (2 * x))

/-- Modelled from the spec: 4:1:1 averages each 4 horizontal samples,
producing a quarter-width chroma plane.  No such mode exists in the
source; CompressPPM treats any mode other than 420 and 422 as a no-op. -/
def subsample411_spec (w h : ℕ) (src : ℕ → ℕ → ℕ) : ℕ × ℕ × (ℕ → ℕ → ℕ) :=
  ((w + 3) / 4, h, fun y x =>
    if 0 < (if 4 * x < w then 1 else 0) + (if 4 * x + 1 < w then 1 else 0) +
        (if 4 * x + 2 < w then 1 else 0) + (if 4 * x + 3 < w then 1 else 0) then
      ((if 4 * x < w then src y (4 * x) else 0) +
        (if 4 * x + 1 < w then src y (4 * x + 1) else 0) +
        (if 4 * x + 2 < w then src y (4 * x + 2) else 0) +
        (if 4 * x + 3 < w then src y (4 * x + 3) else 0)) /
      ((if 4 * x < w then 1 else 0) + (if 4 * x + 1 < w then 1 else 0) +
        (if 4 * x + 2 < w then 1 else 0) + (if 4 * x + 3 < w then 1 else 0))
    else 0)

/-- C8 (amended): 4:4:4 and every unrecognized mode value (411 included)
leave the chroma plane unchanged; mode 422 halves the width and averages
horizontal pairs; mode 420 halves both dimensions and averages 2x2 blocks
(border samples average over the in-range part).  4:1:1 is not
implemented. -/
theorem subsampleDispatch_modes (w h : ℕ) (src : ℕ → ℕ → ℕ) (mode y x : ℕ)
    (hsrc : ∀ a b, src a b ≤ 255) :
    subsampleDispatch 444 w h src = (w, h, src) ∧
    (mode ≠ 420 → mode ≠ 422 → subsampleDispatch mode w h src = (w, h, src)) ∧
    (subsampleDispatch 422 w h src).1 = (w + 1) / 2 ∧
    (subsampleDispatch 422 w h src).2.1 = h ∧
    (x < (w + 1) / 2 →
      (subsampleDispatch 422 w h src).2.2 y x = (subsample422_spec w h src).2.2 y x) ∧
    (subsampleDispatch 420 w h src).1 = (w + 1) / 2 ∧
    (subsampleDispatch 420 w h src).2.1 = (h + 1) / 2 ∧
    (x < (w + 1) / 2 → y < (h + 1) / 2 →
      (subsampleDispatch 420 w h src).2.2 y x = (subsample420_spec w h src).2.2 y x) := by
  have hd422 : subsampleDispatch 422 w h src = subsample422 w h src := by
    rw [subsampleDispatch, if_neg (by norm_num), if_pos rfl]
  have hd420 : subsampleDispatch 420 w h src = subsample420 w h src := by
    rw [subsampleDispatch, if_pos rfl]
  refine ⟨?_, ?_, ?_, ?_, ?_, ?_, ?_, ?_⟩
  · rw [subsampleDispatch, if_neg (by norm_num), if_neg (by norm_num)]
  · intro h1 h2
    rw [subsampleDispatch, if_neg h1, if_neg h2]
  · rw [hd422]; rfl
  · rw [hd422]; rfl
  · intro hx
    rw [hd422]
    have h2x : 2 * x < w := by omega
    show ((if 0 < (if 2 * x < w then 1 else 0) + (if 2 * x + 1 < w then 1 else 0) then
        ((if 2 * x < w then src y (2 * x) else 0) +
          (if 2 * x + 1 < w then src y (2 * x + 1) else 0)) /
        ((if 2 * x < w then 1 else 0) + (if 2 * x + 1 < w then 1 else 0))
      else 0) % 256) = (subsample422_spec w h src).2.2 y x
    by_cases h1 : 2 * x + 1 < w
    · simp only [h2x, h1, if_true, subsample422_spec]
      have ha := hsrc y (2 * x)
      have hb := hsrc y (2 * x + 1)
      rw [if_pos (by norm_num)]
      rw [Nat.mod_eq_of_lt (by omega)]
    · simp only [h2x, h1, if_true, if_false, subsample422_spec]
      have ha := hsrc y (2 * x)
      rw [if_pos (by norm_num)]
      rw [Nat.mod_eq_of_lt (by omega)]
      all_goals omega
  · rw [hd420]; rfl
  · rw [hd420]; rfl
  · intro hx hy
    rw [hd420]
    have h2x : 2 * x < w := by omega
    have h2y : 2 * y < h := by omega
    show ((if 0 < (if 2 * x < w ∧ 2 * y < h then 1 else 0) +
          (if 2 * x + 1 < w ∧ 2 * y < h then 1 else 0) +
          (if 2 * x < w ∧ 2 * y + 1 < h then 1 else 0) +
          (if 2 * x + 1 < w ∧ 2 * y + 1 < h then 1 else 0) then
        ((if 2 * x < w ∧ 2 * y < h then src (2 * y) (2 * x) else 0) +
          (if 2 * x + 1 < w ∧ 2 * y < h then src (2 * y) (2 * x + 1) else 0) +
          (if 2 * x < w ∧ 2 * y + 1 < h then src (2 * y + 1) (2 * x) else 0) +
          (if 2 * x + 1 < w ∧ 2 * y + 1 < h then src (2 * y + 1) (2 * x + 1) else 0)) /
        ((if 2 * x < w ∧ 2 * y < h then 1 else 0) +
          (if 2 * x + 1 < w ∧ 2 * y < h then 1 else 0) +
          (if 2 * x < w ∧ 2 * y + 1 < h then 1 else 0) +
          (if 2 * x + 1 < w ∧ 2 * y + 1 < h then 1 else 0))
      else 0) % 256) = (subsample420_spec w h src).2.2 y x
    have ha := hsrc (2 * y) (2 * x)
    have hb := hsrc (2 * y) (2 * x + 1)
    have hc := hsrc (2 * y + 1) (2 * x)
    have he := hsrc (2 * y + 1) (2 * x + 1)
    by_cases h1 : 2 * x + 1 < w <;> by_cases h2 : 2 * y + 1 < h
    · simp only [h2x, h2y, h1, h2, and_self, if_true, subsample420_spec]
      rw [if_pos (by norm_num)]
      rw [Nat.mod_eq_of_lt (by omega)]
    · simp only [h2x, h2y, h1, h2, and_self, and_true, and_false, true_and,
        if_true, if_false, subsample420_spec]
      rw [if_pos (by norm_num)]
      rw [Nat.mod_eq_of_lt (by omega)]
      all_goals omega
    · simp only [h2x, h2y, h1, h2, and_self, and_true, and_false, true_and,
        false_and, if_true, if_false, subsample420_spec]
      rw [if_pos (by norm_num)]
      rw [Nat.mod_eq_of_lt (by omega)]
      all_goals omega
    · simp only [h2x, h2y, h1, h2, and_self, and_true, and_false, true_and,
        false_and, if_true, if_false, subsample420_spec]
      rw [if_pos (by norm_num)]
      rw [Nat.mod_eq_of_lt (by omega)]
      all_goals omega

/-- C8 counterexample: with mode 411 on a 4x1 plane holding [0, 0, 0, 100],
the dispatch leaves the plane at width 4 with its samples unchanged, while
the 4:1:1 of the specification would produce a single sample 25. -/
theorem subsample411_cx :
    (subsampleDispatch 411 4 1 (fun _ x => if x = 3 then 100 else 0)).1 = 4 ∧
    (subsample411_spec 4 1 (fun _ x => if x = 3 then 100 else 0)).1 = 1 ∧
    (subsampleDispatch 411 4 1 (fun _ x => if x = 3 then 100 else 0)).2.2 0 3 = 100 ∧
    (subsample411_spec 4 1 (fun _ x => if x = 3 then 100 else 0)).2.2 0 0 = 25 := by
  refine ⟨?_, by decide, ?_, by decide⟩
  · rw [subsampleDispatch, if_neg (by norm_num), if_neg (by norm_num)]
  · rw [subsampleDispatch, if_neg (by norm_num), if_neg (by norm_num)]
    decide

/-- Witness for C8: a constant 3x3 plane of value 10, mode 411, sample
position (0, 0). -/
theorem subsampleDispatch_modes_witness :
    subsampleDispatch 444 3 3 (fun _ _ => 10) = (3, 3, fun _ _ => 10) ∧
    ((411 : ℕ) ≠ 420 → (411 : ℕ) ≠ 422 →
      subsampleDispatch 411 3 3 (fun _ _ => 10) = (3, 3, fun _ _ => 10)) ∧
    (subsampleDispatch 422 3 3 (fun _ _ => 10)).1 = (3 + 1) / 2 ∧
    (subsampleDispatch 422 3 3 (fun _ _ => 10)).2.1 = 3 ∧
    ((0 : ℕ) < (3 + 1) / 2 →
      (subsampleDispatch 422 3 3 (fun _ _ => 10)).2.2 0 0 =
        (subsample422_spec 3 3 (fun _ _ => 10)).2.2 0 0) ∧
    (subsampleDispatch 420 3 3 (fun _ _ => 10)).1 = (3 + 1) / 2 ∧
    (subsampleDispatch 420 3 3 (fun _ _ => 10)).2.1 = (3 + 1) / 2 ∧
    ((0 : ℕ) < (3 + 1) / 2 → (0 : ℕ) < (3 + 1) / 2 →
      (subsampleDispatch 420 3 3 (fun _ _ => 10)).2.2 0 0 =
        (subsample420_spec 3 3 (fun _ _ => 10)).2.2 0 0) :=
  subsampleDispatch_modes 3 3 (fun _ _ => 10) 411 0 0 (fun _ _ => by norm_num)

/-! Inverse DCT (dct.cpp, Calcul_IDCT_Block).  The double arithmetic of the
source is modelled over the reals. -/

/-- Normalization coefficient: 1/sqrt(2) for index 0, otherwise 1. -/
noncomputable def Ccoef (u : Fin 8) : ℝ := if u = 0 then 1 / Real.sqrt 2 else 1

/-- The cosine sum of Calcul_IDCT_Block at spatial position (x, y):
sum over (u, v) of Cu * Cv * DCT[u][v] * cos((2x+1)u pi/16) * cos((2y+1)v pi/16). -/
noncomputable def idctSum (M : Fin 8 → Fin 8 → ℝ) (x y : Fin 8) : ℝ :=
  ∑ u : Fin 8, ∑ v : Fin 8,
    Ccoef u * Ccoef v * M u v *
      Real.cos ((((2 * (x : ℕ) + 1) * (u : ℕ) : ℕ) : ℝ) * Real.pi / 16) *
      Real.cos ((((2 * (y : ℕ) + 1) * (v : ℕ) : ℕ) : ℝ) * Real.pi / 16)

/-- Output cell of Calcul_IDCT_Block: the source computes
Bloc8x8[x][y] = static_cast<char>(round(0.25 * sum)), so the rounded value
is additionally wrapped through an 8-bit signed cast before being stored
in the int output block. -/
noncomputable def Calcul_IDCT_cell (M : Fin 8 → Fin 8 → ℝ) (x y : Fin 8) : ℤ :=
  toByte (round (0.25 * idctSum M x y))

/-- Modelled from the spec: the output cell is round(0.25 * sum) itself,
with no narrowing cast. -/
noncomputable def idct_spec_cell (M : Fin 8 → Fin 8 → ℝ) (x y : Fin 8) : ℤ :=
  round (0.25 * idctSum M x y)

theorem idctSum_dc8000 :
    idctSum (fun u v => if u = 0 ∧ v = 0 then 8000 else 0) 0 0 = 4000 := by
  have hterm : ∀ u v : Fin 8, ¬(u = 0 ∧ v = 0) →
      Ccoef u * Ccoef v * (if u = 0 ∧ v = 0 then (8000 : ℝ) else 0) *
        Real.cos ((((2 * ((0 : Fin 8) : ℕ) + 1) * (u : ℕ) : ℕ) : ℝ) * Real.pi / 16) *
        Real.cos ((((2 * ((0 : Fin 8) : ℕ) + 1) * (v : ℕ) : ℕ) : ℝ) * Real.pi / 16) = 0 := by
    intro u v huv
    rw [if_neg huv]
    ring
  unfold idctSum
  rw [Fintype.sum_eq_single (0 : Fin 8)
    (fun u hu => Finset.sum_eq_zero (fun v _ => hterm u v (fun hc => hu hc.1)))]
  rw [Fintype.sum_eq_single (0 : Fin 8)
    (fun v hv => hterm 0 v (fun hc => hv hc.2))]
  have h0 : (((2 * ((0 : Fin 8) : ℕ) + 1) * ((0 : Fin 8) : ℕ) : ℕ) : ℝ) = 0 := by
    norm_num
  rw [if_pos ⟨rfl, rfl⟩, h0]
  have hcos : Real.cos (0 * Real.pi / 16) = 1 := by
    norm_num
  rw [hcos]
  have hC : Ccoef 0 = 1 / Real.sqrt 2 := if_pos rfl
  rw [hC]
  have hsq : (1 / Real.sqrt 2) * (1 / Real.sqrt 2) = 1 / 2 := by
    rw [div_mul_div_comm, one_mul, Real.mul_self_sqrt (by norm_num)]
  calc 1 / Real.sqrt 2 * (1 / Real.sqrt 2) * 8000 * 1 * 1
      = 1 / Real.sqrt 2 * (1 / Real.sqrt 2) * 8000 := by ring
    _ = 1 / 2 * 8000 := by rw [hsq]
    _ = 4000 := by norm_num

/-- C2: the code contradicts the specified inverse transform.  For the
coefficient block with DCT[0][0] = 8000 and all other coefficients zero,
round(0.25 * sum) at cell (0,0) is 1000, but Calcul_IDCT_Block stores
static_cast<char>(1000) = -24 into its int output block (the downstream
+128-and-clamp step even shows the authors expected unwrapped values). -/
theorem idct_char_cast_bug :
    Calcul_IDCT_cell (fun u v => if u = 0 ∧ v = 0 then 8000 else 0) 0 0 = -24 ∧
    idct_spec_cell (fun u v => if u = 0 ∧ v = 0 then 8000 else 0) 0 0 = 1000 := by
  have hround : round ((0.25 : ℝ) * idctSum
      (fun u v => if u = 0 ∧ v = 0 then 8000 else 0) 0 0) = 1000 := by
    rw [idctSum_dc8000]
    rw [show (0.25 : ℝ) * 4000 = ((1000 : ℤ) : ℝ) by norm_num]
    exact round_intCast 1000
  constructor
  · unfold Calcul_IDCT_cell
    rw [hround]
    decide
  · unfold idct_spec_cell
    exact hround
